import Mathlib

/-!
Verification development for the ResumeHunter repository.

The repository consists of two Python files:
- `api6.py`: a FastAPI backend exposing `/push_docs/`, `/ats_check/` and
  `/clear_pinecone/`, plus the pure helpers `generate_hash`,
  `prepare_jsons_for_rag` and `upsert_documents`.
- `app6.py`: a Streamlit client that extracts text from uploaded PDFs, calls
  the backend per resume, parses an ATS score out of the generated report text,
  and ranks the resumes by score.

The definitions below are shallow embeddings of that code.  External
collaborators (the Pinecone index, the sentence-embedding model, the Gemini
generation call, HTTP transport, PDF extraction) are passed in as explicit
function parameters or `Except`-valued outcomes; everything the repository
itself computes is modelled directly.  Namespace `Api` holds the backend
(`api6.py`) and namespace `App` holds the client (`app6.py`).
-/

/-! ## Decimal representation of natural numbers

Python renders the counter with an f-string, i.e. the standard base-10
representation.  `decRepr` is that representation; the lemmas established
about it are that it contains no dash and that it is injective, which is
what the identifier-uniqueness arguments need. -/

/-- Digit characters of `n` in base 10, most significant first (the standard
decimal rendering used by a Python f-string). -/
def decChars (n : Nat) : List Char :=
  if n = 0 then ['0'] else ((Nat.digits 10 n).map Nat.digitChar).reverse

/-- Decimal string of a natural number, as produced by a Python f-string. -/
def decRepr (n : Nat) : String :=
  String.mk (decChars n)

/-- Numeric value of an ASCII digit character (what Python's `int` assigns to
each digit of a digit string). -/
def charVal (c : Char) : Nat :=
  c.toNat - 48

namespace App

/-! ## Score extraction (src/app6.py, form submit handler, lines 58-64)

The Python code is:
```
score = 0
try:
    score_line = [line for line in ats_result.splitlines() if "ATS Match Score" in line][0]
    score = int(''.join(filter(str.isdigit, score_line)))
except:
    pass
```
Modelling notes, faithful to the source for the inputs these claims range
over: `str.splitlines` is modelled as splitting on the newline character
(Python also splits on `\r` and a few rarer control characters; none of the
claims involve those, and lines produced only by those separators would at
worst add lines that are handled by the same uniform rule).  `str.isdigit`
is modelled as the ASCII digit test (Python additionally accepts some
non-ASCII Unicode digit characters; for those Python's `int` can itself
fail, which the bare `except` turns into the same default 0).  The
`IndexError` of `[...][0]` on no match and the `ValueError` of `int("")`
on a digit-free line are the "failure" branches, both yielding 0. -/

/-- Accumulator-based line splitter: cuts the character stream at each
newline; a trailing segment is emitted only if nonempty, matching Python's
`str.splitlines` (no trailing empty line for input ending in a newline,
empty list for the empty string). -/
def splitlinesAux : List Char → List Char → List String
  | [], acc => if acc.isEmpty then [] else [String.mk acc.reverse]
  | c :: rest, acc =>
    if c = '\n' then String.mk acc.reverse :: splitlinesAux rest []
    else splitlinesAux rest (c :: acc)

/-- Model of Python's `str.splitlines` (newline separator). -/
def splitlines (s : String) : List String :=
  splitlinesAux s.data []

/-- Model of Python's substring test `pat in s` over character lists. -/
def containsPat (pat : List Char) : List Char → Bool
  | [] => pat.isPrefixOf ([] : List Char)
  | c :: rest => pat.isPrefixOf (c :: rest) || containsPat pat rest

/-- The filter of the list comprehension: `"ATS Match Score" in line`. -/
def hasScoreLine (line : String) : Bool :=
  containsPat "ATS Match Score".data line.data

/-- Model of the client's score extraction: first line containing
"ATS Match Score", all digit characters of that line concatenated and read
as a base-10 integer; 0 when there is no such line or the line has no
digits (the swallowed `IndexError` / `ValueError`). -/
def scoreFromReport (report : String) : Nat :=
  match (splitlines report).filter hasScoreLine with
  | [] => 0
  | line :: _ =>
    let ds := line.data.filter Char.isDigit
    if ds.isEmpty then 0
    else ds.foldl (fun acc c => acc * 10 + charVal c) 0

end App

namespace Api

/-! ## Backend data preparation (src/api6.py lines 38-57)

`prepare_jsons_for_rag` reads each JSON file, iterates over its job objects
and their recommendation lists, and emits one item per recommendation while
advancing one `global_index` counter shared by the whole run.  The claims
about it are conditioned on every file parsing as an array of job objects,
so the input is modelled as the parsed data: a list of
(basename, parsed job array) pairs.  A recommendation is modelled by its
`json.dumps` serialization (an opaque string, stored verbatim); a job's
missing "recommendations" key is the empty list, matching
`job.get("recommendations", [])`. -/

/-- A parsed job object: optional "slug" key and its recommendation list
(each recommendation already serialized, as `json.dumps(rec)` produces it). -/
structure Job where
  slug : Option String
  recommendations : List String
deriving DecidableEq

/-- An emitted index item, the dict appended by `prepare_jsons_for_rag`;
also the request shape consumed by `upsert_documents` (class `Item`). -/
structure Item where
  id : String
  line : String
  filename : String
  page_number : String
deriving DecidableEq

/-- Items of one job's recommendation list: one item per recommendation,
identifier `slug ++ "-" ++ counter`, counter incremented once per
recommendation.  Returns the items and the counter after the job. -/
def recItems (slug fname : String) : List String → Nat → List Item × Nat
  | [], c => ([], c)
  | r :: rs, c =>
    let rest := recItems slug fname rs (c + 1)
    (⟨slug ++ "-" ++ decRepr c, r, fname, "1"⟩ :: rest.1, rest.2)

/-- Items of one file's job list: the slug defaults to
`"job-" ++ counter` at the moment the job is reached
(`job.get("slug", f"job-{global_index}")`), and the counter threads on
through the job's recommendations. -/
def jobItems (fname : String) : List Job → Nat → List Item × Nat
  | [], c => ([], c)
  | j :: js, c =>
    let slug := j.slug.getD ("job-" ++ decRepr c)
    let this := recItems slug fname j.recommendations c
    let rest := jobItems fname js this.2
    (this.1 ++ rest.1, rest.2)

/-- The flattening pipeline over the (already parsed) input files, threading
the single `global_index` counter across all files. -/
def prepareAux : List (String × List Job) → Nat → List Item × Nat
  | [], c => ([], c)
  | (fname, jobs) :: fs, c =>
    let this := jobItems fname jobs c
    let rest := prepareAux fs this.2
    (this.1 ++ rest.1, rest.2)

/-- Model of `prepare_jsons_for_rag`: the flat item list for the whole run,
with the counter starting at 0 (the Python function wraps this list in a
dict under the "items" key before returning it). -/
def prepare_jsons_for_rag (files : List (String × List Job)) : List Item :=
  (prepareAux files 0).1

/-- Total number of recommendations in a job list. -/
def totalRecsJobs (js : List Job) : Nat :=
  (js.map fun j => j.recommendations.length).sum

/-- Total number of recommendations in a run's input. -/
def totalRecs (files : List (String × List Job)) : Nat :=
  (files.map fun f => totalRecsJobs f.2).sum

/-! ## Batched upsert (src/api6.py lines 59-74)

`upsert_documents` first encodes every document's text into an embedding
(the whole list, eagerly), then walks `range(0, len(vectors), batch_size)` and
calls `index.upsert` on the slice `vectors[i:i+batch_size]` for each index,
sequentially, and finally returns the documents' ids in order.  The
embedding model and the Pinecone index are external: the encoder is a
function parameter with an abstract embedding type, and the upsert calls
are returned as the ordered list of batches handed to the store.
`range(0, n, step)` for `step ≥ 1` is the list of multiples of `step`
below `n`, rendered here as a filter of `List.range n` (Python raises
`ValueError` for `step = 0`; every claim about this function assumes
`batch_size ≥ 1`, and the default is 50). -/

/-- A vector record as built for `index.upsert`: id, embedding values,
metadata text. -/
structure Vec (α : Type) where
  id : String
  values : α
  metadata : String
deriving DecidableEq

/-- The vector built from one document. -/
def mkVec {α : Type} (encode : String → α) (doc : Item) : Vec α :=
  ⟨doc.id, encode doc.line, doc.line⟩

/-- Model of `upsert_documents`: first component is the ordered list of
batches passed to `index.upsert` (one call per batch, issued sequentially),
second component the returned id list. -/
def upsert_documents {α : Type} (encode : String → α) (documents : List Item)
    (batch_size : Nat) : List (List (Vec α)) × List String :=
  let vectors := documents.map (mkVec encode)
  (((List.range vectors.length).filter fun i => i % batch_size == 0).map
      fun i => (vectors.drop i).take batch_size,
   documents.map fun doc => doc.id)

/-! ## Endpoints (src/api6.py lines 91-149)

Each endpoint body is one `try`/`except Exception` block: the downstream
work either completes with a value or raises with a message, which is
modelled by an `Except String` outcome handed to the endpoint.  FastAPI
returns every plain dict with HTTP status 200, so each handler yields
`(200, body)`; the body shapes are the endpoint's success dict and the
shared failure dict with the "error" key. -/

/-- The JSON bodies the three endpoints can return. -/
inductive Body where
  | pushSuccess (inserted_ids : List String)
  | atsOutput (output : String)
  | clearSuccess (message : String)
  | errorBody (error : String)
deriving DecidableEq

/-- Model of the `/push_docs/` handler around its downstream call
(`upsert_documents`, whose embedding and store calls may raise). -/
def push_docs (run : Except String (List String)) : Nat × Body :=
  match run with
  | .ok ids => (200, .pushSuccess ids)
  | .error e => (200, .errorBody e)

/-- Model of the `/ats_check/` handler around the generation call. -/
def ats_check (run : Except String String) : Nat × Body :=
  match run with
  | .ok text => (200, .atsOutput text)
  | .error e => (200, .errorBody e)

/-- Model of the `/clear_pinecone/` handler around `index.delete`. -/
def clear_pinecone (run : Except String Unit) : Nat × Body :=
  match run with
  | .ok _ => (200, .clearSuccess "Pinecone index cleared.")
  | .error e => (200, .errorBody e)

end Api

namespace App

/-! ## Client request helper, resume loop and ranking (src/app6.py)

`ats_check` (lines 8-16) posts to the backend, raises for a 4xx/5xx
status, and reads `res.json().get("output", "No ATS check output.")`;
any exception (transport failure or the raised status) is caught and the
fixed string "Error occurred during ATS check." is returned.  The HTTP
exchange is modelled as an `Except`-valued outcome carrying the status and
JSON body on success.

The submit handler (lines 51-70) walks the uploaded files sequentially:
`extract_text_from_pdf` is NOT inside any try/except, so its failure
propagates and ends the whole run (no ranked output); the backend call and
the score extraction never raise.  One Scoring Result dict
(filename, score, output) is appended per processed resume.  Sorting
(line 74) is Python's `list.sort(key=..., reverse=True)`: a stable sort,
descending by score, ties keeping submission order; the stable insertion
sort below computes exactly that list (an element is inserted into the
sorted later elements, passing exactly the elements of strictly greater
score, so equal scores keep their original relative order). -/

/-- Model of the client helper `ats_check`: the argument is the outcome of
the HTTP POST (transport error, or status code with parsed JSON body). -/
def ats_check (resp : Except String (Nat × Api.Body)) : String :=
  match resp with
  | .error _ => "Error occurred during ATS check."
  | .ok sb =>
    if 400 ≤ sb.1 then "Error occurred during ATS check."
    else
      match sb.2 with
      | Api.Body.atsOutput out => out
      | _ => "No ATS check output."

/-- One Scoring Result dict of the client loop. -/
structure Result where
  filename : String
  score : Nat
  output : String
deriving DecidableEq

/-- The resume loop on already extracted text: one Result per resume, in
submission order.  `respond` is the HTTP exchange for a given resume text. -/
def processResumes (respond : String → Except String (Nat × Api.Body))
    (files : List (String × String)) : List Result :=
  files.map fun f =>
    let out := ats_check (respond f.2)
    ⟨f.1, scoreFromReport out, out⟩

/-- The resume loop including the unguarded PDF extraction step: an
extraction failure propagates out of the loop (the Streamlit run aborts and
no ranked output is displayed), while backend failures are absorbed into the
per-resume output string. -/
def processResumesE (extract : String → Except String String)
    (respond : String → Except String (Nat × Api.Body)) :
    List (String × String) → Except String (List Result)
  | [] => .ok []
  | f :: rest =>
    match extract f.2 with
    | .error e => .error e
    | .ok resume_text =>
      let out := ats_check (respond resume_text)
      match processResumesE extract respond rest with
      | .error e => .error e
      | .ok rs => .ok (⟨f.1, scoreFromReport out, out⟩ :: rs)

/-- Insertion step of the stable descending sort: the inserted element
(earlier in submission order) passes exactly the elements of strictly
greater score. -/
def insertDesc (r : Result) : List Result → List Result
  | [] => [r]
  | x :: xs => if x.score ≤ r.score then r :: x :: xs else x :: insertDesc r xs

/-- Model of `results.sort(key=lambda x: x["score"], reverse=True)`: stable
insertion sort, descending by score. -/
def sortDesc : List Result → List Result
  | [] => []
  | x :: xs => insertDesc x (sortDesc xs)

end App

namespace Api

/-! ## generate_hash (src/api6.py lines 35-36)

`generate_hash(text)` is `hashlib.sha256(text.encode()).hexdigest()`:
UTF-8 encode the text, hash with SHA-256, render the 32 digest bytes as 64
lowercase hex characters.  SHA-256 (FIPS 180-4) is embedded below over
`Nat` byte and word lists, word arithmetic reduced modulo `2 ^ 32`; the
embedding agrees with `hashlib` on the standard test vectors (empty string,
"abc", multi-block and non-ASCII inputs). -/

/-- Reduction of word arithmetic modulo `2 ^ 32`. -/
def m32 (n : Nat) : Nat := n % 4294967296

/-- Right rotation of a 32-bit word by `k`. -/
def rotr (k n : Nat) : Nat := (n / 2 ^ k) + (n % 2 ^ k) * 2 ^ (32 - k)

/-- Logical right shift of a 32-bit word by `k`. -/
def shr (k n : Nat) : Nat := n / 2 ^ k

def bigSigma0 (x : Nat) : Nat := rotr 2 x ^^^ rotr 13 x ^^^ rotr 22 x

def bigSigma1 (x : Nat) : Nat := rotr 6 x ^^^ rotr 11 x ^^^ rotr 25 x

def smallSigma0 (x : Nat) : Nat := rotr 7 x ^^^ rotr 18 x ^^^ shr 3 x

def smallSigma1 (x : Nat) : Nat := rotr 17 x ^^^ rotr 19 x ^^^ shr 10 x

/-- SHA-256 choice function (bitwise complement taken against the 32-bit
all-ones mask). -/
def chFn (e f g : Nat) : Nat := (e &&& f) ^^^ ((e ^^^ 4294967295) &&& g)

/-- SHA-256 majority function. -/
def majFn (a b c : Nat) : Nat := (a &&& b) ^^^ (a &&& c) ^^^ (b &&& c)

/-- The 64 SHA-256 round constants (fractional parts of the cube roots of
the first 64 primes). -/
def K : List Nat := [1116352408, 1899447441, 3049323471, 3921009573,
  961987163, 1508970993, 2453635748, 2870763221,
  3624381080, 310598401, 607225278, 1426881987,
  1925078388, 2162078206, 2614888103, 3248222580,
  3835390401, 4022224774, 264347078, 604807628,
  770255983, 1249150122, 1555081692, 1996064986,
  2554220882, 2821834349, 2952996808, 3210313671,
  3336571891, 3584528711, 113926993, 338241895,
  666307205, 773529912, 1294757372, 1396182291,
  1695183700, 1986661051, 2177026350, 2456956037,
  2730485921, 2820302411, 3259730800, 3345764771,
  3516065817, 3600352804, 4094571909, 275423344,
  430227734, 506948616, 659060556, 883997877,
  958139571, 1322822218, 1537002063, 1747873779,
  1955562222, 2024104815, 2227730452, 2361852424,
  2428436474, 2756734187, 3204031479, 3329325298]

/-- The eight 32-bit working variables / hash state of SHA-256. -/
structure Hs where
  h0 : Nat
  h1 : Nat
  h2 : Nat
  h3 : Nat
  h4 : Nat
  h5 : Nat
  h6 : Nat
  h7 : Nat
deriving DecidableEq

/-- Initial hash value (fractional parts of the square roots of the first
eight primes). -/
def initHs : Hs :=
  ⟨1779033703, 3144134277, 1013904242, 2773480762,
   1359893119, 2600822924, 528734635, 1541459225⟩

/-- UTF-8 encoding of one character (what `str.encode()` emits per code
point; Lean's `Char` excludes surrogates, as Python's `str` cannot encode
them either). -/
def utf8CharBytes (c : Char) : List Nat :=
  let n := c.toNat
  if n < 128 then [n]
  else if n < 2048 then [192 + n / 64, 128 + n % 64]
  else if n < 65536 then [224 + n / 4096, 128 + n / 64 % 64, 128 + n % 64]
  else [240 + n / 262144, 128 + n / 4096 % 64, 128 + n / 64 % 64, 128 + n % 64]

/-- Model of `text.encode()`: the UTF-8 byte sequence of a string. -/
def utf8Bytes (s : String) : List Nat := s.data.flatMap utf8CharBytes

/-- Big-endian 8-byte rendering of the message bit length. -/
def lenBytes (n : Nat) : List Nat :=
  [n / 2 ^ 56 % 256, n / 2 ^ 48 % 256, n / 2 ^ 40 % 256, n / 2 ^ 32 % 256,
   n / 2 ^ 24 % 256, n / 2 ^ 16 % 256, n / 2 ^ 8 % 256, n % 256]

/-- SHA-256 padding: a 0x80 byte, zero bytes up to 56 mod 64, then the
64-bit big-endian bit length. -/
def padBytes (msg : List Nat) : List Nat :=
  msg ++ 128 :: List.replicate ((64 - (msg.length + 9) % 64) % 64) 0 ++ lenBytes (8 * msg.length)

/-- Big-endian 32-bit words of a byte list (a trailing fragment of fewer
than 4 bytes is dropped; padded input has none). -/
def bytesToWords : List Nat → List Nat
  | b0 :: b1 :: b2 :: b3 :: rest =>
    (b0 * 16777216 + b1 * 65536 + b2 * 256 + b3) :: bytesToWords rest
  | _ => []

/-- The padded message split into 64-byte blocks. -/
def toBlocks (l : List Nat) : List (List Nat) :=
  if h : l = [] then []
  else
    have : (l.drop 64).length < l.length := by
      simp only [List.length_drop]
      have hne : l.length ≠ 0 := fun hz => h (List.eq_nil_of_length_eq_zero hz)
      omega
    l.take 64 :: toBlocks (l.drop 64)
termination_by l.length

/-- Message-schedule extension: append `k` further words, each from the
words 2, 7, 15 and 16 places back. -/
def extendW : List Nat → Nat → List Nat
  | ws, 0 => ws
  | ws, k+1 =>
    let w := m32 (smallSigma1 (ws.getD (ws.length - 2) 0) + ws.getD (ws.length - 7) 0 +
      smallSigma0 (ws.getD (ws.length - 15) 0) + ws.getD (ws.length - 16) 0)
    extendW (ws ++ [w]) k

/-- The 64-word message schedule of one block. -/
def scheduleW (block : List Nat) : List Nat := extendW (bytesToWords block) 48

/-- One compression round on the eight working variables, for one round
constant / schedule word pair. -/
def roundStep (s : Hs) (kw : Nat × Nat) : Hs :=
  let t1 := m32 (s.h7 + bigSigma1 s.h4 + chFn s.h4 s.h5 s.h6 + kw.1 + kw.2)
  let t2 := m32 (bigSigma0 s.h0 + majFn s.h0 s.h1 s.h2)
  ⟨m32 (t1 + t2), s.h0, s.h1, s.h2, m32 (s.h3 + t1), s.h4, s.h5, s.h6⟩

/-- Compression of one 64-byte block: 64 rounds, then the feed-forward
addition into the incoming state. -/
def compressBlock (s : Hs) (block : List Nat) : Hs :=
  let r := (K.zip (scheduleW block)).foldl roundStep s
  ⟨m32 (s.h0 + r.h0), m32 (s.h1 + r.h1), m32 (s.h2 + r.h2), m32 (s.h3 + r.h3),
   m32 (s.h4 + r.h4), m32 (s.h5 + r.h5), m32 (s.h6 + r.h6), m32 (s.h7 + r.h7)⟩

/-- The SHA-256 state after hashing a byte message. -/
def sha256Hs (msg : List Nat) : Hs := (toBlocks (padBytes msg)).foldl compressBlock initHs

/-- Big-endian bytes of one state word. -/
def wordBytes (w : Nat) : List Nat := [w / 16777216 % 256, w / 65536 % 256, w / 256 % 256, w % 256]

/-- The 32 digest bytes of a final state. -/
def digestBytes (s : Hs) : List Nat :=
  wordBytes s.h0 ++ wordBytes s.h1 ++ wordBytes s.h2 ++ wordBytes s.h3 ++
  wordBytes s.h4 ++ wordBytes s.h5 ++ wordBytes s.h6 ++ wordBytes s.h7

/-- Lowercase hex digit, as `hexdigest` renders one nibble. -/
def hexDigitChar (n : Nat) : Char := if n < 10 then Char.ofNat (48 + n) else Char.ofNat (87 + n)

/-- The two hex characters of one byte. -/
def byteHex (b : Nat) : List Char := [hexDigitChar (b / 16), hexDigitChar (b % 16)]

/-- Model of `generate_hash`: `hashlib.sha256(text.encode()).hexdigest()`. -/
def generate_hash (text : String) : String :=
  String.mk ((digestBytes (sha256Hs (utf8Bytes text))).flatMap byteHex)

end Api

/-- All eight state words below `2 ^ 32` (an invariant of the SHA-256
compression, used for the digest-space cardinality argument). -/
def HsBounded (s : Api.Hs) : Prop :=
  s.h0 < 4294967296 ∧ s.h1 < 4294967296 ∧ s.h2 < 4294967296 ∧ s.h3 < 4294967296
    ∧ s.h4 < 4294967296 ∧ s.h5 < 4294967296 ∧ s.h6 < 4294967296 ∧ s.h7 < 4294967296

theorem charVal_digitChar {d : Nat} (h : d < 10) : charVal (Nat.digitChar d) = d := by
  interval_cases d <;> rfl

theorem digitChar_ne_dash {d : Nat} (h : d < 10) : Nat.digitChar d ≠ '-' := by
  interval_cases d <;> decide

theorem dash_not_mem_decChars (n : Nat) : ('-' : Char) ∉ decChars n := by
  unfold decChars
  split
  · decide
  · intro hmem
    rw [List.mem_reverse] at hmem
    obtain ⟨d, hd, hdc⟩ := List.mem_map.mp hmem
    exact digitChar_ne_dash (Nat.digits_lt_base (by norm_num) hd) hdc

theorem map_charVal_digitChar {l : List Nat} (h : ∀ d ∈ l, d < 10) :
    (l.map Nat.digitChar).map charVal = l := by
  rw [List.map_map]
  have : ∀ d ∈ l, (charVal ∘ Nat.digitChar) d = d := fun d hd => charVal_digitChar (h d hd)
  rw [List.map_congr_left this]
  exact List.map_id l

theorem decChars_inj {m n : Nat} (h : decChars m = decChars n) : m = n := by
  have key : ∀ k : Nat, k ≠ 0 → decChars k = ['0'] → False := by
    intro k hk hdk
    unfold decChars at hdk
    rw [if_neg hk] at hdk
    have hmap : (Nat.digits 10 k).map Nat.digitChar = ['0'] := by
      have := congrArg List.reverse hdk
      simpa using this
    cases hdig : Nat.digits 10 k with
    | nil => rw [hdig] at hmap; simp at hmap
    | cons d ds =>
      cases ds with
      | nil =>
        rw [hdig] at hmap
        simp at hmap
        have hd10 : d < 10 :=
          Nat.digits_lt_base (by norm_num) (hdig ▸ List.mem_cons_self d [])
        have hd0 : d = 0 := by
          have := charVal_digitChar hd10
          rw [hmap] at this
          simpa [charVal] using this.symm
        apply hk
        calc k = Nat.ofDigits 10 (Nat.digits 10 k) := (Nat.ofDigits_digits 10 k).symm
          _ = Nat.ofDigits 10 [d] := by rw [hdig]
          _ = d := by simp [Nat.ofDigits_singleton]
          _ = 0 := hd0
      | cons e es => rw [hdig] at hmap; simp at hmap
  by_cases hm : m = 0 <;> by_cases hn : n = 0
  · omega
  · exfalso
    apply key n hn
    rw [← h]
    simp [decChars, hm]
  · exfalso
    apply key m hm
    rw [h]
    simp [decChars, hn]
  · unfold decChars at h
    rw [if_neg hm, if_neg hn] at h
    have hmap : (Nat.digits 10 m).map Nat.digitChar = (Nat.digits 10 n).map Nat.digitChar :=
      List.reverse_injective h
    have hdm : ∀ d ∈ Nat.digits 10 m, d < 10 := fun d hd => Nat.digits_lt_base (by norm_num) hd
    have hdn : ∀ d ∈ Nat.digits 10 n, d < 10 := fun d hd => Nat.digits_lt_base (by norm_num) hd
    have hdig : Nat.digits 10 m = Nat.digits 10 n := by
      have := congrArg (List.map charVal) hmap
      rwa [map_charVal_digitChar hdm, map_charVal_digitChar hdn] at this
    calc m = Nat.ofDigits 10 (Nat.digits 10 m) := (Nat.ofDigits_digits 10 m).symm
      _ = Nat.ofDigits 10 (Nat.digits 10 n) := by rw [hdig]
      _ = n := Nat.ofDigits_digits 10 n

theorem decRepr_inj {m n : Nat} (h : decRepr m = decRepr n) : m = n := by
  apply decChars_inj
  have := congrArg String.data h
  simpa [decRepr] using this

theorem takeWhile_middle (p : Char → Bool) (l1 : List Char) (x : Char) (l2 : List Char)
    (h1 : ∀ a ∈ l1, p a = true) (hx : p x = false) :
    (l1 ++ x :: l2).takeWhile p = l1 := by
  induction l1 with
  | nil => simp [List.takeWhile_cons, hx]
  | cons a as ih =>
    have ha : p a = true := h1 a (List.mem_cons_self a as)
    simp only [List.cons_append, List.takeWhile_cons, ha]
    simp only [if_true]
    rw [ih (fun b hb => h1 b (List.mem_cons_of_mem a hb))]

/-- Two strings of the shape `slug ++ "-" ++ decimal counter` built from
distinct counters are distinct, whatever the slugs are: the dash-free decimal
suffix after the last dash determines the counter. -/
theorem counter_id_ne {s1 s2 : String} {m n : Nat} (h : m ≠ n) :
    s1 ++ "-" ++ decRepr m ≠ s2 ++ "-" ++ decRepr n := by
  intro he
  apply h
  have hd : s1.data ++ '-' :: decChars m = s2.data ++ '-' :: decChars n := by
    have := congrArg String.data he
    simpa [String.data_append, decRepr] using this
  have hr : (decChars m).reverse ++ '-' :: s1.data.reverse =
      (decChars n).reverse ++ '-' :: s2.data.reverse := by
    have := congrArg List.reverse hd
    simpa [List.reverse_append] using this
  have hall : ∀ k : Nat, ∀ a ∈ (decChars k).reverse, (a != '-') = true := by
    intro k a ha
    rw [List.mem_reverse] at ha
    have : a ≠ '-' := fun hcontra => dash_not_mem_decChars k (hcontra ▸ ha)
    simpa using this
  have := congrArg (List.takeWhile (· != '-')) hr
  rw [takeWhile_middle _ _ _ _ (hall m) (by decide),
      takeWhile_middle _ _ _ _ (hall n) (by decide)] at this
  exact decChars_inj (List.reverse_injective this)

theorem find?_eq_filter_head? {α : Type} (p : α → Bool) (l : List α) :
    l.find? p = (l.filter p).head? := by
  induction l with
  | nil => rfl
  | cons x xs ih =>
    by_cases h : p x
    · rw [List.find?_cons_of_pos _ h, List.filter_cons_of_pos h]
      rfl
    · rw [List.find?_cons_of_neg _ h, List.filter_cons_of_neg h]
      exact ih

theorem foldl_horner_eq_ofDigits (l : List Nat) (a : Nat) :
    l.foldl (fun acc d => acc * 10 + d) a = Nat.ofDigits 10 l.reverse + a * 10 ^ l.length := by
  induction l generalizing a with
  | nil => simp
  | cons d ds ih =>
    simp only [List.foldl_cons, ih (a * 10 + d), List.reverse_cons, List.length_cons]
    rw [Nat.ofDigits_append]
    simp [Nat.ofDigits_singleton]
    ring

/-- C3: the client-side score extraction selects the first line containing
"ATS Match Score", concatenates all digit characters of that line and reads
the concatenation as a base-10 integer; when no such line exists (and when
the line has no digits, the other failure mode of the wrapped extraction)
the score is 0.  The function is total, so no exception escapes. -/
theorem score_extraction_first_matching_line (report : String) :
    App.scoreFromReport report =
      match (App.splitlines report).find? App.hasScoreLine with
      | none => 0
      | some line => Nat.ofDigits 10 (((line.data.filter Char.isDigit).map charVal).reverse) := by
  rw [find?_eq_filter_head?]
  unfold App.scoreFromReport
  cases hfl : (App.splitlines report).filter App.hasScoreLine with
  | nil => rfl
  | cons line rest =>
    simp only [List.head?_cons]
    show (if (line.data.filter Char.isDigit).isEmpty then 0
          else (line.data.filter Char.isDigit).foldl (fun acc c => acc * 10 + charVal c) 0) =
      Nat.ofDigits 10 (((line.data.filter Char.isDigit).map charVal).reverse)
    by_cases hds : (line.data.filter Char.isDigit).isEmpty
    · have h0 : line.data.filter Char.isDigit = [] := by simpa using hds
      rw [if_pos hds, h0]
      simp
    · rw [if_neg hds, ← List.foldl_map charVal (fun acc d => acc * 10 + d)]
      rw [foldl_horner_eq_ofDigits]
      simp

/-- C4 (evaluation at the failing input): on the line the spec's own output
format mandates, digit concatenation absorbs the "1." numbering, so the
extracted score is 187, not the 87 the spec expects. -/
theorem score_extraction_example_line :
    App.scoreFromReport "1. ATS Match Score: 87%" = 187 := by
  decide

theorem insertDesc_perm (r : App.Result) (l : List App.Result) :
    (App.insertDesc r l).Perm (r :: l) := by
  induction l with
  | nil => exact List.Perm.refl _
  | cons x xs ih =>
    unfold App.insertDesc
    by_cases h : x.score ≤ r.score
    · rw [if_pos h]
    · rw [if_neg h]
      exact (ih.cons x).trans (List.Perm.swap r x xs)

theorem mem_insertDesc {b r : App.Result} {l : List App.Result}
    (hb : b ∈ App.insertDesc r l) : b = r ∨ b ∈ l := by
  have := (insertDesc_perm r l).mem_iff.mp hb
  simpa using this

theorem insertDesc_sorted (r : App.Result) (l : List App.Result)
    (h : l.Pairwise fun a b => b.score ≤ a.score) :
    (App.insertDesc r l).Pairwise fun a b => b.score ≤ a.score := by
  induction l with
  | nil => simp [App.insertDesc]
  | cons x xs ih =>
    rw [List.pairwise_cons] at h
    unfold App.insertDesc
    by_cases hc : x.score ≤ r.score
    · rw [if_pos hc]
      refine List.Pairwise.cons ?_ (List.Pairwise.cons h.1 h.2)
      intro b hb
      rcases List.mem_cons.mp hb with rfl | hb
      · exact hc
      · exact (h.1 b hb).trans hc
    · rw [if_neg hc]
      refine List.Pairwise.cons ?_ (ih h.2)
      intro b hb
      rcases mem_insertDesc hb with hb | hb
      · subst hb
        omega
      · exact h.1 b hb

theorem sortDesc_perm (l : List App.Result) : (App.sortDesc l).Perm l := by
  induction l with
  | nil => exact List.Perm.refl _
  | cons x xs ih =>
    exact (insertDesc_perm x (App.sortDesc xs)).trans (ih.cons x)

theorem sortDesc_sorted (l : List App.Result) :
    (App.sortDesc l).Pairwise fun a b => b.score ≤ a.score := by
  induction l with
  | nil => simp [App.sortDesc]
  | cons x xs ih => exact insertDesc_sorted x _ ih

theorem filter_insertDesc (r : App.Result) (l : List App.Result) (s : Nat) :
    (App.insertDesc r l).filter (fun a => a.score == s) =
      if r.score == s then r :: l.filter (fun a => a.score == s)
      else l.filter (fun a => a.score == s) := by
  induction l with
  | nil =>
    show List.filter (fun a => a.score == s) [r] = _
    by_cases hr : r.score == s
    · simp [List.filter_cons, hr]
    · simp [List.filter_cons, hr]
  | cons x xs ih =>
    unfold App.insertDesc
    by_cases hc : x.score ≤ r.score
    · rw [if_pos hc]
      by_cases hr : r.score == s <;> simp [List.filter_cons, hr]
    · rw [if_neg hc]
      rw [List.filter_cons, List.filter_cons, ih]
      by_cases hr : r.score == s <;> by_cases hx : x.score == s
      · exfalso
        have h1 : r.score = s := eq_of_beq hr
        have h2 : x.score = s := eq_of_beq hx
        omega
      · simp [hr, hx, List.filter_cons]
      · simp [hr, hx, List.filter_cons]
      · simp [hr, hx, List.filter_cons]

theorem filter_sortDesc (l : List App.Result) (s : Nat) :
    (App.sortDesc l).filter (fun a => a.score == s) = l.filter (fun a => a.score == s) := by
  induction l with
  | nil => rfl
  | cons x xs ih =>
    show (App.insertDesc x (App.sortDesc xs)).filter _ = _
    rw [filter_insertDesc, List.filter_cons, ih]

/-- C5: the client builds exactly one Scoring Result per uploaded resume and
ranks by score: the sorted list is a permutation of the results, descending
in score, with ties keeping submission order (the per-score filters are
unchanged, which together with sortedness pins down the stable sort); the
head of the sorted list is the "best" entry, and on the concrete 40/90/65
scenario the ranked output is 90, 65, 40 with the 90-scorer first. -/
theorem ranking_spec (respond : String → Except String (Nat × Api.Body))
    (files : List (String × String)) :
    (App.processResumes respond files).length = files.length
    ∧ (App.sortDesc (App.processResumes respond files)).Perm (App.processResumes respond files)
    ∧ (App.sortDesc (App.processResumes respond files)).Pairwise (fun a b => b.score ≤ a.score)
    ∧ (∀ s : Nat, (App.sortDesc (App.processResumes respond files)).filter (fun r => r.score == s)
        = (App.processResumes respond files).filter (fun r => r.score == s))
    ∧ App.sortDesc [⟨"A", 40, "oA"⟩, ⟨"B", 90, "oB"⟩, ⟨"C", 65, "oC"⟩]
        = [⟨"B", 90, "oB"⟩, ⟨"C", 65, "oC"⟩, ⟨"A", 40, "oA"⟩]
    ∧ (App.sortDesc [⟨"A", 40, "oA"⟩, ⟨"B", 90, "oB"⟩, ⟨"C", 65, "oC"⟩]).head?
        = some ⟨"B", 90, "oB"⟩ := by
  refine ⟨by simp [App.processResumes], sortDesc_perm _, sortDesc_sorted _,
    fun s => filter_sortDesc _ s, by decide, by decide⟩

/-- C6 counterexample: a Scoring Result built by the client from the very
report line the backend prompt mandates carries score 187, outside 0..100. -/
theorem score_range_counterexample :
    (App.processResumes
        (fun _ => Except.ok (200, Api.Body.atsOutput "1. ATS Match Score: 87%"))
        [("r.pdf", "resume text")]).map (fun r => r.score) = [187]
    ∧ ¬ (187 ≤ 100) := by
  exact ⟨by decide, by decide⟩

/-- C6 amended: every Scoring Result's score is the (nonnegative) digit
concatenation extracted from its own report text, and it defaults to 0 when
no line of the report contains "ATS Match Score"; no upper bound of 100 is
enforced by the code. -/
theorem score_range_amended (respond : String → Except String (Nat × Api.Body))
    (files : List (String × String)) (r : App.Result)
    (hr : r ∈ App.processResumes respond files) :
    r.score = App.scoreFromReport r.output
    ∧ ((App.splitlines r.output).find? App.hasScoreLine = none → r.score = 0) := by
  obtain ⟨f, hf, rfl⟩ := List.mem_map.mp hr
  refine ⟨rfl, ?_⟩
  intro hnone
  rw [find?_eq_filter_head?] at hnone
  show App.scoreFromReport _ = 0
  unfold App.scoreFromReport
  cases hfl : (App.splitlines _).filter App.hasScoreLine with
  | nil => rfl
  | cons a as =>
    rw [hfl] at hnone
    simp at hnone

/-- C6 amended, instantiated: the result the client builds when the backend
call fails in transport has score 0 (and the defaulting implication holds at
it). -/
theorem score_range_amended_witness :
    (⟨"r.pdf", 0, "Error occurred during ATS check."⟩ : App.Result).score =
      App.scoreFromReport
        (⟨"r.pdf", 0, "Error occurred during ATS check."⟩ : App.Result).output
    ∧ ((App.splitlines
          (⟨"r.pdf", 0, "Error occurred during ATS check."⟩ : App.Result).output).find?
            App.hasScoreLine = none →
        (⟨"r.pdf", 0, "Error occurred during ATS check."⟩ : App.Result).score = 0) :=
  score_range_amended (fun _ => Except.error "connection refused") [("r.pdf", "txt")]
    ⟨"r.pdf", 0, "Error occurred during ATS check."⟩ (by decide)

/-- C7: each endpoint handler catches any downstream failure and answers
with HTTP status 200 in every case; the body carries the "error" key with
the exception message exactly when the downstream call failed, so failure is
detectable only from the body. -/
theorem endpoints_error_contract (u : Except String (List String))
    (g : Except String String) (d : Except String Unit) :
    (Api.push_docs u).1 = 200 ∧ (Api.ats_check g).1 = 200 ∧ (Api.clear_pinecone d).1 = 200
    ∧ (∀ e, (Api.push_docs u).2 = Api.Body.errorBody e ↔ u = Except.error e)
    ∧ (∀ e, (Api.ats_check g).2 = Api.Body.errorBody e ↔ g = Except.error e)
    ∧ (∀ e, (Api.clear_pinecone d).2 = Api.Body.errorBody e ↔ d = Except.error e) := by
  refine ⟨?_, ?_, ?_, fun e => ?_, fun e => ?_, fun e => ?_⟩
  · cases u <;> rfl
  · cases g <;> rfl
  · cases d <;> rfl
  · cases u <;> simp [Api.push_docs]
  · cases g <;> simp [Api.ats_check]
  · cases d <;> simp [Api.clear_pinecone]

theorem scoreFromReport_transport_error :
    App.scoreFromReport "Error occurred during ATS check." = 0 := by
  decide

theorem processResumesE_cons (extract : String → Except String String)
    (respond : String → Except String (Nat × Api.Body)) (f : String × String)
    (rest : List (String × String)) :
    App.processResumesE extract respond (f :: rest) =
      match extract f.2 with
      | .error e => .error e
      | .ok resume_text =>
        let out := App.ats_check (respond resume_text)
        match App.processResumesE extract respond rest with
        | .error e => .error e
        | .ok rs => .ok (⟨f.1, App.scoreFromReport out, out⟩ :: rs) := rfl

/-- C8 counterexample: two uploads, the first PDF failing to extract; the
unguarded extraction aborts the whole batch with the extraction error, so no
Scoring Result is produced for the remaining (healthy) resume. -/
theorem pdf_failure_aborts_batch :
    App.processResumesE
      (fun pdf => if pdf = "corrupt-bytes" then Except.error "pdf parse failure"
        else Except.ok pdf)
      (fun _ => Except.ok (200, Api.Body.atsOutput "1. ATS Match Score: 87%"))
      [("bad.pdf", "corrupt-bytes"), ("good.pdf", "good resume text")]
      = Except.error "pdf parse failure" := by
  rfl

/-- C8 amended: a PDF-extraction failure is not caught, so it aborts the
batch and the remaining resumes yield no results; a backend failure for a
resume, by contrast, is absorbed and that resume still yields a Scoring
Result with score 0. -/
theorem resume_loop_error_amended :
    (∀ (extract : String → Except String String)
        (respond : String → Except String (Nat × Api.Body)) name pdf rest e,
      extract pdf = Except.error e →
        App.processResumesE extract respond ((name, pdf) :: rest) = Except.error e)
    ∧ (∀ (extract : String → Except String String)
        (respond : String → Except String (Nat × Api.Body)) name pdf rest resume e,
      extract pdf = Except.ok resume → respond resume = Except.error e →
        App.processResumesE extract respond ((name, pdf) :: rest)
          = (App.processResumesE extract respond rest).map
              (fun rs => (⟨name, 0, "Error occurred during ATS check."⟩ : App.Result) :: rs)) := by
  constructor
  · intro extract respond name pdf rest e he
    unfold App.processResumesE
    rw [he]
  · intro extract respond name pdf rest resume e hok herr
    cases hres : App.processResumesE extract respond rest with
    | error e2 =>
      rw [processResumesE_cons, hok]
      simp only [herr, App.ats_check, hres]
      simp [Except.map]
    | ok rs =>
      rw [processResumesE_cons, hok]
      simp only [herr, App.ats_check, hres]
      simp [Except.map, scoreFromReport_transport_error]

/-- C10: pushing an empty item list performs zero vector-store upsert calls
and the endpoint answers success with an empty inserted_ids list. -/
theorem push_docs_empty {α : Type} (encode : String → α) (bs : Nat) :
    Api.upsert_documents encode [] bs = ([], [])
    ∧ Api.push_docs (Except.ok (Api.upsert_documents encode [] bs).2)
        = (200, Api.Body.pushSuccess []) :=
  ⟨rfl, rfl⟩

theorem filter_range_eq_map_mul (bs : Nat) (hbs : 1 ≤ bs) (n : Nat) :
    (List.range n).filter (fun i => i % bs == 0)
      = (List.range ((n + bs - 1) / bs)).map (fun i => i * bs) := by
  induction n with
  | zero =>
    have h0 : (0 + bs - 1) / bs = 0 := Nat.div_eq_of_lt (by omega)
    rw [h0]
    simp
  | succ n ih =>
    rw [List.range_succ, List.filter_append, ih]
    obtain ⟨q, r, rfl, hrlt⟩ : ∃ q r, n = bs * q + r ∧ r < bs :=
      ⟨n / bs, n % bs, (Nat.div_add_mod n bs).symm, Nat.mod_lt _ (by omega)⟩
    have hmod : (bs * q + r) % bs = r := by
      rw [Nat.mul_add_mod, Nat.mod_eq_of_lt hrlt]
    by_cases hr0 : r = 0
    · subst hr0
      have h1 : (bs * q + 0 + 1 + bs - 1) / bs = q + 1 := by
        have e : bs * q + 0 + 1 + bs - 1 = bs * q + bs := by
          generalize bs * q = m
          omega
        rw [e, Nat.add_div_right _ (by omega), Nat.mul_div_cancel_left q (by omega)]
      have h2 : (bs * q + 0 + bs - 1) / bs = q := by
        have e : bs * q + 0 + bs - 1 = (bs - 1) + bs * q := by
          generalize bs * q = m
          omega
        rw [e, Nat.add_mul_div_left _ _ (by omega : 0 < bs), Nat.div_eq_of_lt (by omega)]
        omega
      rw [h1, h2, List.range_succ, List.map_append]
      have hfil : List.filter (fun i => i % bs == 0) [bs * q + 0] = [bs * q + 0] := by
        simp [List.filter_cons, hmod]
      rw [hfil]
      simp [Nat.mul_comm]
    · have h1 : (bs * q + r + 1 + bs - 1) / bs = q + 1 := by
        have e : bs * q + r + 1 + bs - 1 = (r + bs) + bs * q := by
          generalize bs * q = m
          omega
        rw [e, Nat.add_mul_div_left _ _ (by omega : 0 < bs),
          Nat.add_div_right _ (by omega), Nat.div_eq_of_lt hrlt]
        omega
      have h2 : (bs * q + r + bs - 1) / bs = q + 1 := by
        have e : bs * q + r + bs - 1 = ((r - 1) + bs) + bs * q := by
          generalize bs * q = m
          omega
        rw [e, Nat.add_mul_div_left _ _ (by omega : 0 < bs),
          Nat.add_div_right _ (by omega), Nat.div_eq_of_lt (by omega : r - 1 < bs)]
        omega
      rw [h1, h2]
      have hfil : List.filter (fun i => i % bs == 0) [bs * q + r] = [] := by
        simp [List.filter_cons, hmod, hr0]
      rw [hfil, List.append_nil]

theorem mul_lt_of_lt_ceil {i n bs : Nat} (hbs : 1 ≤ bs) (hi : i < (n + bs - 1) / bs) :
    i * bs < n := by
  by_contra hcon
  push_neg at hcon
  have hle : (n + bs - 1) / bs ≤ (i * bs + bs - 1) / bs := Nat.div_le_div_right (by omega)
  have h2 : (i * bs + bs - 1) / bs = i := by
    have e : i * bs + bs - 1 = (bs - 1) + bs * i := by
      have hm : bs * i = i * bs := Nat.mul_comm bs i
      generalize bs * i = m at hm
      omega
    rw [e, Nat.add_mul_div_left _ _ (by omega : 0 < bs), Nat.div_eq_of_lt (by omega)]
    omega
  omega

theorem join_slices {α : Type} (bs : Nat) (hbs : 1 ≤ bs) :
    ∀ (k : Nat) (l : List α), k = (l.length + bs - 1) / bs →
      ((List.range k).map (fun i => (l.drop (i * bs)).take bs)).flatten = l := by
  intro k
  induction k with
  | zero =>
    intro l hk
    have hlen : l.length = 0 := by
      by_contra hc
      have h1 : 1 ≤ l.length := by omega
      have : 1 ≤ (l.length + bs - 1) / bs := by
        rw [Nat.one_le_div_iff (by omega)]
        omega
      omega
    rw [List.eq_nil_of_length_eq_zero hlen]
    simp
  | succ k ihk =>
    intro l hk
    have hlen : 1 ≤ l.length := by
      by_contra hc
      push_neg at hc
      have h0 : l.length = 0 := by omega
      rw [h0] at hk
      rw [Nat.div_eq_of_lt (by omega)] at hk
      omega
    rw [List.range_succ_eq_map, List.map_cons]
    simp only [Nat.zero_mul, List.drop_zero]
    rw [List.map_map]
    have hcomp : ((fun i => (l.drop (i * bs)).take bs) ∘ Nat.succ)
        = fun i => ((l.drop bs).drop (i * bs)).take bs := by
      funext i
      simp only [Function.comp]
      rw [List.drop_drop]
      have e : Nat.succ i * bs = bs + i * bs := by
        rw [Nat.succ_mul]
        omega
      rw [e]
    rw [hcomp]
    show l.take bs ++ ((List.range k).map fun i => ((l.drop bs).drop (i * bs)).take bs).flatten = l
    rw [ihk (l.drop bs) ?_]
    · exact List.take_append_drop bs l
    · rw [List.length_drop]
      by_cases hle : l.length ≤ bs
      · have hd : l.length - bs = 0 := by omega
        rw [hd, Nat.div_eq_of_lt (by omega)]
        have h1 : (l.length + bs - 1) / bs = 1 := by
          have e : l.length + bs - 1 = (l.length - 1) + bs := by omega
          rw [e, Nat.add_div_right _ (by omega), Nat.div_eq_of_lt (by omega)]
        omega
      · have e : l.length - bs + bs - 1 = l.length - 1 := by omega
        rw [e]
        have e2 : l.length + bs - 1 = (l.length - 1) + bs := by omega
        rw [e2, Nat.add_div_right _ (by omega)] at hk
        omega

theorem upsert_calls_eq {α : Type} (encode : String → α) (docs : List Api.Item)
    (bs : Nat) (hbs : 1 ≤ bs) :
    (Api.upsert_documents encode docs bs).1
      = (List.range ((docs.length + bs - 1) / bs)).map
          (fun i => ((docs.map (Api.mkVec encode)).drop (i * bs)).take bs) := by
  show ((List.range (docs.map (Api.mkVec encode)).length).filter (fun i => i % bs == 0)).map
      (fun i => ((docs.map (Api.mkVec encode)).drop i).take bs) = _
  rw [List.length_map, filter_range_eq_map_mul bs hbs, List.map_map]
  rfl

/-- C2: for every document list and batch size at least 1, the batched
upsert builds the vector of every document up front, issues exactly
ceil(n / batch_size) upsert calls (the list of calls, in issue order), whose
batches are the contiguous slices of the eagerly built vector list of size
batch_size (the last possibly smaller, none empty), together covering every
document's vector exactly once in input order; and it returns the documents'
ids in input order. -/
theorem upsert_documents_spec {α : Type} (encode : String → α) (docs : List Api.Item)
    (bs : Nat) (hbs : 1 ≤ bs) :
    (Api.upsert_documents encode docs bs).1.length = (docs.length + bs - 1) / bs
    ∧ (Api.upsert_documents encode docs bs).1.flatten = docs.map (Api.mkVec encode)
    ∧ (∀ i, i < (Api.upsert_documents encode docs bs).1.length →
        (Api.upsert_documents encode docs bs).1[i]? =
          some (((docs.map (Api.mkVec encode)).drop (i * bs)).take bs))
    ∧ (∀ i, i < (Api.upsert_documents encode docs bs).1.length →
        ∃ b, (Api.upsert_documents encode docs bs).1[i]? = some b
          ∧ b.length = min bs (docs.length - i * bs) ∧ b ≠ [])
    ∧ (Api.upsert_documents encode docs bs).2 = docs.map (fun d => d.id) := by
  have hcalls := upsert_calls_eq encode docs bs hbs
  have hlen : (Api.upsert_documents encode docs bs).1.length = (docs.length + bs - 1) / bs := by
    rw [hcalls, List.length_map, List.length_range]
  have hidx : ∀ i, i < (Api.upsert_documents encode docs bs).1.length →
      (Api.upsert_documents encode docs bs).1[i]? =
        some (((docs.map (Api.mkVec encode)).drop (i * bs)).take bs) := by
    intro i hi
    rw [hlen] at hi
    rw [hcalls, List.getElem?_map, List.getElem?_range hi]
    rfl
  refine ⟨hlen, ?_, hidx, ?_, rfl⟩
  · rw [hcalls]
    exact join_slices bs hbs _ (docs.map (Api.mkVec encode)) (by rw [List.length_map])
  · intro i hi
    refine ⟨((docs.map (Api.mkVec encode)).drop (i * bs)).take bs, hidx i hi, ?_, ?_⟩
    · rw [List.length_take, List.length_drop, List.length_map]
    · have hmul : i * bs < docs.length := by
        rw [hlen] at hi
        exact mul_lt_of_lt_ceil hbs hi
      apply List.ne_nil_of_length_pos
      rw [List.length_take, List.length_drop, List.length_map]
      omega

/-- C2 at a concrete input: three documents with batch size 2 give two calls
and return the three ids in order. -/
theorem upsert_documents_spec_witness :
    (Api.upsert_documents (fun s => s)
      [⟨"a", "x", "f", "1"⟩, ⟨"b", "y", "f", "1"⟩, ⟨"c", "z", "f", "1"⟩] 2).1.length = 2
    ∧ (Api.upsert_documents (fun s => s)
      [⟨"a", "x", "f", "1"⟩, ⟨"b", "y", "f", "1"⟩, ⟨"c", "z", "f", "1"⟩] 2).2
        = ["a", "b", "c"] := by
  have h := upsert_documents_spec (fun s => s)
    [⟨"a", "x", "f", "1"⟩, ⟨"b", "y", "f", "1"⟩, ⟨"c", "z", "f", "1"⟩] 2 (by decide)
  refine ⟨?_, ?_⟩
  · rw [h.1]
    decide
  · rw [h.2.2.2.2]
    decide

theorem recItems_snd (slug fname : String) (rs : List String) (c : Nat) :
    (Api.recItems slug fname rs c).2 = c + rs.length := by
  induction rs generalizing c with
  | nil => rfl
  | cons r rs ih =>
    show (Api.recItems slug fname rs (c + 1)).2 = c + (rs.length + 1)
    rw [ih (c + 1)]
    omega

theorem recItems_length (slug fname : String) (rs : List String) (c : Nat) :
    (Api.recItems slug fname rs c).1.length = rs.length := by
  induction rs generalizing c with
  | nil => rfl
  | cons r rs ih =>
    show (Api.recItems slug fname rs (c + 1)).1.length + 1 = rs.length + 1
    rw [ih (c + 1)]

theorem recItems_get (slug fname : String) (rs : List String) (c : Nat) :
    ∀ (i : Nat) (r : String), rs[i]? = some r →
      (Api.recItems slug fname rs c).1[i]? =
        some ⟨slug ++ "-" ++ decRepr (c + i), r, fname, "1"⟩ := by
  induction rs generalizing c with
  | nil =>
    intro i r h
    simp at h
  | cons x rs ih =>
    intro i r h
    cases i with
    | zero =>
      simp at h
      subst h
      show (⟨slug ++ "-" ++ decRepr c, x, fname, "1"⟩ ::
        (Api.recItems slug fname rs (c + 1)).1)[0]? = _
      rw [List.getElem?_cons_zero]
      rfl
    | succ i =>
      rw [List.getElem?_cons_succ] at h
      show (⟨slug ++ "-" ++ decRepr c, x, fname, "1"⟩ ::
        (Api.recItems slug fname rs (c + 1)).1)[i + 1]? = _
      rw [List.getElem?_cons_succ, ih (c + 1) i r h]
      have e : c + 1 + i = c + (i + 1) := by omega
      rw [e]

theorem totalRecsJobs_cons (j : Api.Job) (js : List Api.Job) :
    Api.totalRecsJobs (j :: js) = j.recommendations.length + Api.totalRecsJobs js := by
  simp [Api.totalRecsJobs]

theorem totalRecsJobs_append (js1 js2 : List Api.Job) :
    Api.totalRecsJobs (js1 ++ js2) = Api.totalRecsJobs js1 + Api.totalRecsJobs js2 := by
  simp [Api.totalRecsJobs]

theorem totalRecs_cons (f : String × List Api.Job) (fs : List (String × List Api.Job)) :
    Api.totalRecs (f :: fs) = Api.totalRecsJobs f.2 + Api.totalRecs fs := by
  simp [Api.totalRecs]

theorem totalRecs_append (fs1 fs2 : List (String × List Api.Job)) :
    Api.totalRecs (fs1 ++ fs2) = Api.totalRecs fs1 + Api.totalRecs fs2 := by
  simp [Api.totalRecs]

theorem jobItems_snd (fname : String) (js : List Api.Job) (c : Nat) :
    (Api.jobItems fname js c).2 = c + Api.totalRecsJobs js := by
  induction js generalizing c with
  | nil => simp [Api.jobItems, Api.totalRecsJobs]
  | cons j js ih =>
    show (Api.jobItems fname js
      (Api.recItems (j.slug.getD ("job-" ++ decRepr c)) fname j.recommendations c).2).2 = _
    rw [recItems_snd, ih, totalRecsJobs_cons]
    omega

theorem jobItems_cons (fname : String) (j : Api.Job) (js : List Api.Job) (c : Nat) :
    Api.jobItems fname (j :: js) c =
      ((Api.recItems (j.slug.getD ("job-" ++ decRepr c)) fname j.recommendations c).1
        ++ (Api.jobItems fname js (c + j.recommendations.length)).1,
       (Api.jobItems fname js (c + j.recommendations.length)).2) := by
  show ((Api.recItems (j.slug.getD ("job-" ++ decRepr c)) fname j.recommendations c).1
    ++ (Api.jobItems fname js
        (Api.recItems (j.slug.getD ("job-" ++ decRepr c)) fname j.recommendations c).2).1,
    (Api.jobItems fname js
        (Api.recItems (j.slug.getD ("job-" ++ decRepr c)) fname j.recommendations c).2).2) = _
  rw [recItems_snd]

theorem jobItems_length (fname : String) (js : List Api.Job) (c : Nat) :
    (Api.jobItems fname js c).1.length = Api.totalRecsJobs js := by
  induction js generalizing c with
  | nil => simp [Api.jobItems, Api.totalRecsJobs]
  | cons j js ih =>
    rw [jobItems_cons, totalRecsJobs_cons]
    simp only [List.length_append, recItems_length, ih]

theorem prepareAux_snd (fs : List (String × List Api.Job)) (c : Nat) :
    (Api.prepareAux fs c).2 = c + Api.totalRecs fs := by
  induction fs generalizing c with
  | nil => simp [Api.prepareAux, Api.totalRecs]
  | cons f fs ih =>
    obtain ⟨fname, jobs⟩ := f
    show (Api.prepareAux fs (Api.jobItems fname jobs c).2).2 = _
    rw [jobItems_snd, ih, totalRecs_cons]
    dsimp only
    omega

theorem prepareAux_cons (fname : String) (jobs : List Api.Job)
    (fs : List (String × List Api.Job)) (c : Nat) :
    Api.prepareAux ((fname, jobs) :: fs) c =
      ((Api.jobItems fname jobs c).1
        ++ (Api.prepareAux fs (c + Api.totalRecsJobs jobs)).1,
       (Api.prepareAux fs (c + Api.totalRecsJobs jobs)).2) := by
  show ((Api.jobItems fname jobs c).1 ++ (Api.prepareAux fs (Api.jobItems fname jobs c).2).1,
    (Api.prepareAux fs (Api.jobItems fname jobs c).2).2) = _
  rw [jobItems_snd]

theorem prepareAux_length (fs : List (String × List Api.Job)) (c : Nat) :
    (Api.prepareAux fs c).1.length = Api.totalRecs fs := by
  induction fs generalizing c with
  | nil => simp [Api.prepareAux, Api.totalRecs]
  | cons f fs ih =>
    obtain ⟨fname, jobs⟩ := f
    rw [prepareAux_cons, totalRecs_cons]
    simp only [List.length_append, jobItems_length, ih]

theorem jobItems_fst_append (fname : String) (js1 js2 : List Api.Job) (c : Nat) :
    (Api.jobItems fname (js1 ++ js2) c).1
      = (Api.jobItems fname js1 c).1
        ++ (Api.jobItems fname js2 (c + Api.totalRecsJobs js1)).1 := by
  induction js1 generalizing c with
  | nil =>
    show (Api.jobItems fname js2 c).1 = [] ++ (Api.jobItems fname js2 (c + Api.totalRecsJobs [])).1
    simp [Api.totalRecsJobs]
  | cons j js1 ih =>
    rw [List.cons_append, jobItems_cons, jobItems_cons, ih, totalRecsJobs_cons]
    rw [List.append_assoc]
    have e : c + j.recommendations.length + Api.totalRecsJobs js1
        = c + (j.recommendations.length + Api.totalRecsJobs js1) := by omega
    rw [e]

theorem prepareAux_fst_append (fs1 fs2 : List (String × List Api.Job)) (c : Nat) :
    (Api.prepareAux (fs1 ++ fs2) c).1
      = (Api.prepareAux fs1 c).1 ++ (Api.prepareAux fs2 (c + Api.totalRecs fs1)).1 := by
  induction fs1 generalizing c with
  | nil =>
    show (Api.prepareAux fs2 c).1 = [] ++ (Api.prepareAux fs2 (c + Api.totalRecs [])).1
    simp [Api.totalRecs]
  | cons f fs1 ih =>
    obtain ⟨fname, jobs⟩ := f
    rw [List.cons_append, prepareAux_cons, prepareAux_cons, ih, totalRecs_cons]
    rw [List.append_assoc]
    have e : c + Api.totalRecsJobs jobs + Api.totalRecs fs1
        = c + (Api.totalRecsJobs jobs + Api.totalRecs fs1) := by omega
    rw [e]

theorem recItems_id_suffix (slug fname : String) (rs : List String) (c : Nat) :
    ∀ k : Nat, k < rs.length → ∃ s it, (Api.recItems slug fname rs c).1[k]? = some it
      ∧ it.id = s ++ "-" ++ decRepr (c + k) := by
  intro k hk
  have hr : rs[k]? = some rs[k] := List.getElem?_eq_getElem hk
  exact ⟨slug, _, recItems_get slug fname rs c k _ hr, rfl⟩

theorem jobItems_id_suffix (fname : String) (js : List Api.Job) :
    ∀ (c k : Nat), k < Api.totalRecsJobs js → ∃ s it,
      (Api.jobItems fname js c).1[k]? = some it ∧ it.id = s ++ "-" ++ decRepr (c + k) := by
  induction js with
  | nil =>
    intro c k hk
    simp [Api.totalRecsJobs] at hk
  | cons j js ih =>
    intro c k hk
    by_cases hlt : k < j.recommendations.length
    · have hsplit : (Api.jobItems fname (j :: js) c).1[k]? =
          (Api.recItems (j.slug.getD ("job-" ++ decRepr c)) fname j.recommendations c).1[k]? := by
        rw [jobItems_cons]
        dsimp only
        rw [List.getElem?_append_left (by rw [recItems_length]; exact hlt)]
      obtain ⟨s, it, hit, hid⟩ :=
        recItems_id_suffix (j.slug.getD ("job-" ++ decRepr c)) fname j.recommendations c k hlt
      exact ⟨s, it, hsplit.trans hit, hid⟩
    · push_neg at hlt
      have hsplit : (Api.jobItems fname (j :: js) c).1[k]? =
          (Api.jobItems fname js (c + j.recommendations.length)).1[k - j.recommendations.length]? := by
        rw [jobItems_cons]
        dsimp only
        rw [List.getElem?_append_right (by rw [recItems_length]; exact hlt), recItems_length]
      have hk2 : k - j.recommendations.length < Api.totalRecsJobs js := by
        rw [totalRecsJobs_cons] at hk
        omega
      obtain ⟨s, it, hit, hid⟩ := ih (c + j.recommendations.length) (k - j.recommendations.length) hk2
      refine ⟨s, it, hsplit.trans hit, ?_⟩
      rw [hid]
      have e : c + j.recommendations.length + (k - j.recommendations.length) = c + k := by omega
      rw [e]

theorem prepareAux_id_suffix (fs : List (String × List Api.Job)) :
    ∀ (c k : Nat), k < Api.totalRecs fs → ∃ s it,
      (Api.prepareAux fs c).1[k]? = some it ∧ it.id = s ++ "-" ++ decRepr (c + k) := by
  induction fs with
  | nil =>
    intro c k hk
    simp [Api.totalRecs] at hk
  | cons f fs ih =>
    obtain ⟨fname, jobs⟩ := f
    intro c k hk
    by_cases hlt : k < Api.totalRecsJobs jobs
    · have hsplit : (Api.prepareAux ((fname, jobs) :: fs) c).1[k]? =
          (Api.jobItems fname jobs c).1[k]? := by
        rw [prepareAux_cons]
        dsimp only
        rw [List.getElem?_append_left (by rw [jobItems_length]; exact hlt)]
      obtain ⟨s, it, hit, hid⟩ := jobItems_id_suffix fname jobs c k hlt
      exact ⟨s, it, hsplit.trans hit, hid⟩
    · push_neg at hlt
      have hsplit : (Api.prepareAux ((fname, jobs) :: fs) c).1[k]? =
          (Api.prepareAux fs (c + Api.totalRecsJobs jobs)).1[k - Api.totalRecsJobs jobs]? := by
        rw [prepareAux_cons]
        dsimp only
        rw [List.getElem?_append_right (by rw [jobItems_length]; exact hlt), jobItems_length]
      have hk2 : k - Api.totalRecsJobs jobs < Api.totalRecs fs := by
        rw [totalRecs_cons] at hk
        dsimp only at hk
        omega
      obtain ⟨s, it, hit, hid⟩ := ih (c + Api.totalRecsJobs jobs) (k - Api.totalRecsJobs jobs) hk2
      refine ⟨s, it, hsplit.trans hit, ?_⟩
      rw [hid]
      have e : c + Api.totalRecsJobs jobs + (k - Api.totalRecsJobs jobs) = c + k := by omega
      rw [e]

theorem prepare_ids_pairwise (files : List (String × List Api.Job)) :
    (Api.prepare_jsons_for_rag files).Pairwise (fun a b => a.id ≠ b.id) := by
  rw [List.pairwise_iff_get]
  intro i j hij
  have hlen : (Api.prepare_jsons_for_rag files).length = Api.totalRecs files :=
    prepareAux_length files 0
  have hi : (i : Nat) < Api.totalRecs files := by
    have h2 := i.2
    omega
  have hj : (j : Nat) < Api.totalRecs files := by
    have h2 := j.2
    omega
  obtain ⟨s1, it1, hit1, hid1⟩ := prepareAux_id_suffix files 0 i hi
  obtain ⟨s2, it2, hit2, hid2⟩ := prepareAux_id_suffix files 0 j hj
  have he1 : it1 = (Api.prepare_jsons_for_rag files).get i := by
    have h2 : (Api.prepare_jsons_for_rag files)[(i : Nat)]? =
        some ((Api.prepare_jsons_for_rag files).get i) := by
      rw [List.getElem?_eq_getElem i.2]
      rfl
    have := hit1.symm.trans h2
    exact Option.some.inj this
  have he2 : it2 = (Api.prepare_jsons_for_rag files).get j := by
    have h2 : (Api.prepare_jsons_for_rag files)[(j : Nat)]? =
        some ((Api.prepare_jsons_for_rag files).get j) := by
      rw [List.getElem?_eq_getElem j.2]
      rfl
    have := hit2.symm.trans h2
    exact Option.some.inj this
  rw [← he1, ← he2, hid1, hid2]
  rw [Nat.zero_add, Nat.zero_add]
  exact counter_id_ne (by omega)

theorem prepare_position (fs1 : List (String × List Api.Job)) (fname : String)
    (js1 : List Api.Job) (j : Api.Job) (js2 : List Api.Job)
    (fs2 : List (String × List Api.Job)) (i : Nat) (r : String)
    (hir : j.recommendations[i]? = some r) :
    (Api.prepare_jsons_for_rag (fs1 ++ (fname, js1 ++ j :: js2) :: fs2))[Api.totalRecs fs1
        + Api.totalRecsJobs js1 + i]? =
      some ⟨(j.slug.getD ("job-" ++ decRepr (Api.totalRecs fs1 + Api.totalRecsJobs js1)))
        ++ "-" ++ decRepr (Api.totalRecs fs1 + Api.totalRecsJobs js1 + i), r, fname, "1"⟩ := by
  have hi : i < j.recommendations.length := by
    by_contra hge
    push_neg at hge
    rw [List.getElem?_eq_none hge] at hir
    exact Option.noConfusion hir
  show (Api.prepareAux (fs1 ++ (fname, js1 ++ j :: js2) :: fs2) 0).1[_]? = _
  rw [prepareAux_fst_append, Nat.zero_add]
  rw [List.getElem?_append_right (by rw [prepareAux_length]; omega), prepareAux_length]
  have e1 : Api.totalRecs fs1 + Api.totalRecsJobs js1 + i - Api.totalRecs fs1
      = Api.totalRecsJobs js1 + i := by omega
  rw [e1, prepareAux_cons]
  dsimp only
  rw [List.getElem?_append_left (by
    rw [jobItems_length, totalRecsJobs_append, totalRecsJobs_cons]
    omega)]
  rw [jobItems_fst_append]
  rw [List.getElem?_append_right (by rw [jobItems_length]; omega), jobItems_length]
  have e2 : Api.totalRecsJobs js1 + i - Api.totalRecsJobs js1 = i := by omega
  rw [e2, jobItems_cons]
  dsimp only
  rw [List.getElem?_append_left (by rw [recItems_length]; exact hi)]
  exact recItems_get _ fname j.recommendations _ i r hir

/-- C1: the flattening pipeline threads one counter, starting at 0, across
all files, jobs and recommendations: it emits exactly one item per
recommendation (first conjunct), the item at global position k carries the
identifier slug-k for some slug, i.e. the counter value equals the global
index and is incremented once per recommendation in file, then job, then
recommendation order (second conjunct, made exact per job by the fourth:
the i-th recommendation of a job preceded by c0 recommendations yields the
item at position c0 + i, with identifier built from the job's slug — or the
default "job-" ++ c0, fixed when the job is reached — and counter c0 + i,
carrying the serialized recommendation and the originating filename); and
all identifiers of one run are pairwise distinct (third conjunct). -/
theorem prepare_jsons_for_rag_spec (files : List (String × List Api.Job)) :
    (Api.prepare_jsons_for_rag files).length = Api.totalRecs files
    ∧ (∀ k : Nat, k < (Api.prepare_jsons_for_rag files).length →
        ∃ s it, (Api.prepare_jsons_for_rag files)[k]? = some it
          ∧ it.id = s ++ "-" ++ decRepr k)
    ∧ (Api.prepare_jsons_for_rag files).Pairwise (fun a b => a.id ≠ b.id)
    ∧ (∀ (fs1 : List (String × List Api.Job)) (fname : String) (js1 : List Api.Job)
        (j : Api.Job) (js2 : List Api.Job) (fs2 : List (String × List Api.Job)),
        files = fs1 ++ (fname, js1 ++ j :: js2) :: fs2 →
        ∀ (i : Nat) (r : String), j.recommendations[i]? = some r →
          (Api.prepare_jsons_for_rag files)[Api.totalRecs fs1 + Api.totalRecsJobs js1 + i]? =
            some ⟨(j.slug.getD ("job-" ++ decRepr (Api.totalRecs fs1 + Api.totalRecsJobs js1)))
              ++ "-" ++ decRepr (Api.totalRecs fs1 + Api.totalRecsJobs js1 + i),
              r, fname, "1"⟩) := by
  refine ⟨prepareAux_length files 0, ?_, prepare_ids_pairwise files, ?_⟩
  · intro k hk
    have hk2 : k < Api.totalRecs files := by
      have hlen : (Api.prepare_jsons_for_rag files).length = Api.totalRecs files :=
        prepareAux_length files 0
      omega
    obtain ⟨s, it, hit, hid⟩ := prepareAux_id_suffix files 0 k hk2
    exact ⟨s, it, hit, by rw [hid, Nat.zero_add]⟩
  · intro fs1 fname js1 j js2 fs2 hfiles i r hir
    subst hfiles
    exact prepare_position fs1 fname js1 j js2 fs2 i r hir

theorem compressBlock_bounded (s : Api.Hs) (b : List Nat) :
    HsBounded (Api.compressBlock s b) := by
  show HsBounded
    ⟨Api.m32 (s.h0 + ((Api.K.zip (Api.scheduleW b)).foldl Api.roundStep s).h0),
     Api.m32 (s.h1 + ((Api.K.zip (Api.scheduleW b)).foldl Api.roundStep s).h1),
     Api.m32 (s.h2 + ((Api.K.zip (Api.scheduleW b)).foldl Api.roundStep s).h2),
     Api.m32 (s.h3 + ((Api.K.zip (Api.scheduleW b)).foldl Api.roundStep s).h3),
     Api.m32 (s.h4 + ((Api.K.zip (Api.scheduleW b)).foldl Api.roundStep s).h4),
     Api.m32 (s.h5 + ((Api.K.zip (Api.scheduleW b)).foldl Api.roundStep s).h5),
     Api.m32 (s.h6 + ((Api.K.zip (Api.scheduleW b)).foldl Api.roundStep s).h6),
     Api.m32 (s.h7 + ((Api.K.zip (Api.scheduleW b)).foldl Api.roundStep s).h7)⟩
  generalize (Api.K.zip (Api.scheduleW b)).foldl Api.roundStep s = r
  exact ⟨Nat.mod_lt _ (by norm_num), Nat.mod_lt _ (by norm_num), Nat.mod_lt _ (by norm_num),
    Nat.mod_lt _ (by norm_num), Nat.mod_lt _ (by norm_num), Nat.mod_lt _ (by norm_num),
    Nat.mod_lt _ (by norm_num), Nat.mod_lt _ (by norm_num)⟩

theorem initHs_bounded : HsBounded Api.initHs := by
  refine ⟨?_, ?_, ?_, ?_, ?_, ?_, ?_, ?_⟩ <;> norm_num [Api.initHs]

theorem foldl_compressBlock_bounded (bs : List (List Nat)) :
    ∀ s : Api.Hs, HsBounded s → HsBounded (bs.foldl Api.compressBlock s) := by
  induction bs with
  | nil => intro s hs; exact hs
  | cons b bs ih =>
    intro s hs
    rw [List.foldl_cons]
    exact ih _ (compressBlock_bounded s b)

theorem sha256Hs_bounded (msg : List Nat) : HsBounded (Api.sha256Hs msg) :=
  foldl_compressBlock_bounded _ _ initHs_bounded

theorem Hs_ext {a b : Api.Hs} (e0 : a.h0 = b.h0) (e1 : a.h1 = b.h1) (e2 : a.h2 = b.h2)
    (e3 : a.h3 = b.h3) (e4 : a.h4 = b.h4) (e5 : a.h5 = b.h5) (e6 : a.h6 = b.h6)
    (e7 : a.h7 = b.h7) : a = b := by
  cases a
  cases b
  dsimp only at e0 e1 e2 e3 e4 e5 e6 e7
  rw [e0, e1, e2, e3, e4, e5, e6, e7]

theorem length_flatMap_byteHex (bs : List Nat) :
    (bs.flatMap Api.byteHex).length = 2 * bs.length := by
  induction bs with
  | nil => rfl
  | cons b bs ih =>
    rw [List.flatMap_cons, List.length_append, ih]
    show 2 + 2 * bs.length = 2 * (bs.length + 1)
    omega

theorem digestBytes_length (s : Api.Hs) : (Api.digestBytes s).length = 32 := by
  simp [Api.digestBytes, Api.wordBytes]

/-- C9 amended: generate_hash is deterministic — it is a pure function of the
input text, so equal texts always give equal digests — and every digest is a
string of exactly 64 (hex) characters; distinctness of digests for distinct
texts, however, holds only with negligible collision probability, not
universally (the digest space is finite, see the counterexample theorem). -/
theorem generate_hash_amended (t u : String) :
    (t = u → Api.generate_hash t = Api.generate_hash u)
    ∧ (Api.generate_hash t).length = 64 := by
  refine ⟨fun h => by rw [h], ?_⟩
  show (String.mk ((Api.digestBytes (Api.sha256Hs (Api.utf8Bytes t))).flatMap
    Api.byteHex)).length = 64
  show ((Api.digestBytes (Api.sha256Hs (Api.utf8Bytes t))).flatMap Api.byteHex).length = 64
  rw [length_flatMap_byteHex, digestBytes_length]

/-- C9 counterexample: digest-value distinctness for all pairs of distinct
texts is false in principle — the digest is determined by eight words below
`2 ^ 32`, a finite space, while there are infinitely many texts, so two
distinct texts share a digest (no concrete pair is known, in line with
SHA-256's collision resistance; the existence is a cardinality fact). -/
theorem generate_hash_collision :
    ¬ ∀ t1 t2 : String, t1 ≠ t2 → Api.generate_hash t1 ≠ Api.generate_hash t2 := by
  intro hinj
  obtain ⟨t1, t2, hne, heq⟩ := Finite.exists_ne_map_eq_of_infinite
    (fun t : String =>
      ((⟨Api.m32 (Api.sha256Hs (Api.utf8Bytes t)).h0, Nat.mod_lt _ (by norm_num)⟩ : Fin 4294967296),
       (⟨Api.m32 (Api.sha256Hs (Api.utf8Bytes t)).h1, Nat.mod_lt _ (by norm_num)⟩ : Fin 4294967296),
       (⟨Api.m32 (Api.sha256Hs (Api.utf8Bytes t)).h2, Nat.mod_lt _ (by norm_num)⟩ : Fin 4294967296),
       (⟨Api.m32 (Api.sha256Hs (Api.utf8Bytes t)).h3, Nat.mod_lt _ (by norm_num)⟩ : Fin 4294967296),
       (⟨Api.m32 (Api.sha256Hs (Api.utf8Bytes t)).h4, Nat.mod_lt _ (by norm_num)⟩ : Fin 4294967296),
       (⟨Api.m32 (Api.sha256Hs (Api.utf8Bytes t)).h5, Nat.mod_lt _ (by norm_num)⟩ : Fin 4294967296),
       (⟨Api.m32 (Api.sha256Hs (Api.utf8Bytes t)).h6, Nat.mod_lt _ (by norm_num)⟩ : Fin 4294967296),
       (⟨Api.m32 (Api.sha256Hs (Api.utf8Bytes t)).h7, Nat.mod_lt _ (by norm_num)⟩ : Fin 4294967296)))
  apply hinj t1 t2 hne
  simp only [Prod.mk.injEq, Fin.mk.injEq] at heq
  obtain ⟨e0, e1, e2, e3, e4, e5, e6, e7⟩ := heq
  obtain ⟨b10, b11, b12, b13, b14, b15, b16, b17⟩ := sha256Hs_bounded (Api.utf8Bytes t1)
  obtain ⟨b20, b21, b22, b23, b24, b25, b26, b27⟩ := sha256Hs_bounded (Api.utf8Bytes t2)
  have hm : ∀ x : Nat, x < 4294967296 → Api.m32 x = x := fun x hx => Nat.mod_eq_of_lt hx
  have hs : Api.sha256Hs (Api.utf8Bytes t1) = Api.sha256Hs (Api.utf8Bytes t2) := by
    apply Hs_ext
    · rw [← hm _ b10, ← hm _ b20]; exact e0
    · rw [← hm _ b11, ← hm _ b21]; exact e1
    · rw [← hm _ b12, ← hm _ b22]; exact e2
    · rw [← hm _ b13, ← hm _ b23]; exact e3
    · rw [← hm _ b14, ← hm _ b24]; exact e4
    · rw [← hm _ b15, ← hm _ b25]; exact e5
    · rw [← hm _ b16, ← hm _ b26]; exact e6
    · rw [← hm _ b17, ← hm _ b27]; exact e7
  exact congrArg (fun s => String.mk ((Api.digestBytes s).flatMap Api.byteHex)) hs
